import Mathlib

/-!
A shallow embedding of the schema-driven settings engine
(`src/toad/settings.py` and `src/toad/settings_schema.py`).

Python dictionaries are modelled as insertion-ordered association lists
(`List (String × _)`): assignment to an existing key keeps its position and
replaces the value; assignment to a fresh key appends.  Python runtime values
appearing in a settings tree are modelled by the inductive `Value`; Python
exceptions are modelled by explicit error sums.
-/

/-- A Python runtime value, as it can occur in a values tree, a schema default
or a validate descriptor: booleans, integers, strings, dicts and lists. -/
inductive Value where
  | bool (b : Bool)
  | int (n : Int)
  | str (s : String)
  | dict (entries : List (String × Value))
  | list (elems : List Value)

/-- The `expect_type` argument of `get_setting`: a Python type object used in
an `isinstance` check. -/
inductive PyType where
  | object
  | bool
  | int
  | str
  | dict
  | list
deriving DecidableEq

/-- Python `isinstance(value, t)`.  Note that in Python `bool` is a subclass
of `int`, so a boolean is an instance of `int`. -/
def isinst : Value → PyType → Bool
  | _, .object => true
  | .bool _, .bool => true
  | .bool _, .int => true
  | .int _, .int => true
  | .str _, .str => true
  | .dict _, .dict => true
  | .list _, .list => true
  | _, _ => false

/-- The Python type of a value (`type(v)`), as a `PyType`. -/
def pyTypeOf : Value → PyType
  | .bool _ => .bool
  | .int _ => .int
  | .str _ => .str
  | .dict _ => .dict
  | .list _ => .list

/-- Python `d[k]` lookup on a dict modelled as an association list. -/
def dictGet {α : Type} : List (String × α) → String → Option α
  | [], _ => none
  | (k, v) :: rest, key => if k = key then some v else dictGet rest key

/-- Python `d[k] = v` on a dict modelled as an association list: an existing
key keeps its position and gets the new value, a fresh key is appended. -/
def dictSet {α : Type} : List (String × α) → String → α → List (String × α)
  | [], key, value => [(key, value)]
  | (k, v) :: rest, key, value =>
    if k = key then (k, value) :: rest else (k, v) :: dictSet rest key value

/-- Helper for `parse_key`: Python `str.split(".")` over the character list,
with the accumulator holding the current segment reversed. -/
def splitDotAux : List Char → List Char → List String
  | [], acc => [String.mk acc.reverse]
  | c :: rest, acc =>
    if c = '.' then String.mk acc.reverse :: splitDotAux rest []
    else splitDotAux rest (c :: acc)

/-- `parse_key` (settings.py line 54): `key.split(".")`.  Like Python's
`split` with a non-empty separator, this always returns at least one
segment (the empty string splits to `[""]`). -/
def parse_key (key : String) : List String :=
  splitDotAux key.data []

/-- The outcomes of `get_setting` other than a normal return:
`keyError c` is `KeyError(key_component)` raised by a failed dict lookup
inside the loop; `invalidValue` is `InvalidValue`; `assertionError` is the
failure of `assert isinstance(sub_settings, dict)` (line 85);
`keyErrorPostLoop k` is the trailing `raise KeyError(key)` after the loop
(line 87). -/
inductive GetErr where
  | keyError (component : String)
  | invalidValue
  | assertionError
  | keyErrorPostLoop (key : String)
deriving DecidableEq

/-- The loop of `get_setting` (settings.py lines 75-87), iterating over
`loop_last(parse_key(key))`: on the last segment, look the component up
(`KeyError` on a miss) and check `isinstance(result, expect_type)`; on an
earlier segment, look the component up and require the sub-settings to be a
dict before descending.  An empty segment list falls through to
`raise KeyError(key)`. -/
def getSettingAux (t : PyType) (fullKey : String) :
    List (String × Value) → List String → Except GetErr Value
  | _, [] => .error (.keyErrorPostLoop fullKey)
  | settings, [comp] =>
    match dictGet settings comp with
    | none => .error (.keyError comp)
    | some v => if isinst v t then .ok v else .error .invalidValue
  | settings, comp :: rest =>
    match dictGet settings comp with
    | none => .error (.keyError comp)
    | some (Value.dict sub) => getSettingAux t fullKey sub rest
    | some _ => .error .assertionError

/-- `get_setting` (settings.py lines 58-87). -/
def get_setting (settings : List (String × Value)) (key : String)
    (t : PyType) : Except GetErr Value :=
  getSettingAux t key settings (parse_key key)

/-!
## The schema definition (`SchemaDict`)

A `SchemaDict` mirrors the `SchemaDict` TypedDict of settings.py: required
`key`, `title`, `type`, optional `help`, `default`, `fields`, `validate`.
A list of schema dicts is represented by the mutually inductive
`SchemaFields` (a plain cons list; the mutual formulation keeps all
recursion structural so that definitions evaluate).  A missing `fields`
entry and `fields: []` are interchangeable everywhere in the source (it is
only read through the falsy test `schema.get("fields")` and through
`schema.get("fields", [])`), so both are `SchemaFields.nil` here.  Likewise
a missing `default` and `default: None` are `none` (the source only tests
`get("default") is not None` / passes a `None` fallback). -/
mutual
inductive SchemaDict where
  | mk (key title type : String) (help : Option String) (default : Option Value)
       (fields : SchemaFields) (validate : Option (List (List (String × Value))))
inductive SchemaFields where
  | nil
  | cons (d : SchemaDict) (rest : SchemaFields)
end

def SchemaDict.key : SchemaDict → String
  | .mk k _ _ _ _ _ _ => k

def SchemaDict.title : SchemaDict → String
  | .mk _ t _ _ _ _ _ => t

def SchemaDict.type : SchemaDict → String
  | .mk _ _ ty _ _ _ _ => ty

def SchemaDict.help : SchemaDict → Option String
  | .mk _ _ _ h _ _ _ => h

def SchemaDict.default : SchemaDict → Option Value
  | .mk _ _ _ _ d _ _ => d

def SchemaDict.fields : SchemaDict → SchemaFields
  | .mk _ _ _ _ _ f _ => f

def SchemaDict.validate : SchemaDict → Option (List (List (String × Value)))
  | .mk _ _ _ _ _ _ v => v

def SchemaFields.isEmpty : SchemaFields → Bool
  | .nil => true
  | .cons _ _ => false

def SchemaFields.toList : SchemaFields → List SchemaDict
  | .nil => []
  | .cons d rest => d :: rest.toList

/-!
## `Schema.set_value` (settings.py lines 94-105)

The walk keeps a cursor named `schema` that starts at `self.schema`, which
is the top-level *list* of schema dicts.  The first loop iteration therefore
evaluates `key not in schema` with `key` a string and `schema` a list of
dicts; Python list membership compares the string against each dict with
`==`, which is never true, so `InvalidKey` is raised on the first iteration
for every key.  Before that check, when the first segment is also the last
(`if last:`), `settings[key] = value` has already run, so a one-segment key
mutates the values tree before the exception propagates.  The line
`schema = schema[key]` (indexing a list with a string, a `TypeError`) is
unreachable because the membership test never succeeds. -/

/-- Python `==` between a string and a dict: always `False`. -/
def pyStrEqDict (_ : String) (_ : SchemaDict) : Bool := false

/-- Python `key in schema` where `schema` is the `list[SchemaDict]` held by
the `Schema`: membership by `==` against each element. -/
def pyStrInSchemaList (k : String) : SchemaFields → Bool
  | .nil => false
  | .cons d rest => pyStrEqDict k d || pyStrInSchemaList k rest

/-- The exceptions `Schema.set_value` can raise: `InvalidKey` from line 101,
and the `TypeError` that `schema = schema[key]` (line 102, string index into
a list) would raise if the membership test ever succeeded. -/
inductive SetErr where
  | invalidKey
  | typeError
deriving DecidableEq

/-- `Schema.set_value` (settings.py lines 94-105).  Returns the values tree
as it stands when the call finishes, together with the exception raised, if
any.  The loop over `loop_last(parse_key(key))` never gets past its first
iteration: `if last: settings[key] = value` runs first, then
`if key not in schema` compares the string segment against the list of
schema dicts and always fails, raising `InvalidKey` (were the test to
succeed, `schema = schema[key]` would raise `TypeError`).  With an empty
segment sequence the loop body would never run and the call would return
normally. -/
def Schema.set_value (schema : SchemaFields) (settings : List (String × Value))
    (key : String) (value : Value) : List (String × Value) × Option SetErr :=
  match parse_key key with
  | [] => (settings, none)
  | k :: rest =>
    let settings1 := if rest = [] then dictSet settings k value else settings
    if pyStrInSchemaList k schema then (settings1, some .typeError)
    else (settings1, some .invalidKey)

/-!
## `Schema.defaults` (settings.py lines 107-127)
-/

mutual
/-- The loop of the inner `set_defaults(schema, settings)` of
`Schema.defaults`, processing each sub-schema in order. -/
def setDefaults : SchemaFields → List (String × Value) → List (String × Value)
  | .nil, settings => settings
  | .cons d rest, settings => setDefaults rest (setDefaults1 d settings)
/-- One iteration of the `set_defaults` loop: for an `object` with a truthy
(non-empty) `fields` list, set `settings[key]` to a fresh nested mapping and
recurse into it; otherwise, for a non-`None` `default`, set
`settings[key] = default`. -/
def setDefaults1 : SchemaDict → List (String × Value) → List (String × Value)
  | SchemaDict.mk key _ ty _ default fields _, settings =>
    if ty = "object" then
      if fields.isEmpty then settings
      else dictSet settings key (Value.dict (setDefaults fields []))
    else
      match default with
      | none => settings
      | some v => dictSet settings key v
end

/-- `Schema.defaults` (settings.py lines 107-127): `set_defaults` applied to
the schema and a fresh empty settings mapping. -/
def Schema.defaults (schema : SchemaFields) : List (String × Value) :=
  setDefaults schema []

/-!
## The compiled `Setting` tree and `Schema.settings_map`
(settings.py lines 11-21 and 143-179)

`Setting.children` is `None` for a leaf and a dict for an `object` in the
source; the two are only ever read through the falsy test
`setting.children` in `get_keys`, so both are modelled as a possibly empty
`SettingChildren` list (`nil` standing for `None` as well as for `{}`). -/
mutual
inductive Setting where
  | mk (key title type help : String) (default : Option Value)
       (validate : Option (List (List (String × Value)))) (children : SettingChildren)
inductive SettingChildren where
  | nil
  | cons (key : String) (s : Setting) (rest : SettingChildren)
end

def Setting.key : Setting → String
  | .mk k _ _ _ _ _ _ => k

def Setting.type : Setting → String
  | .mk _ _ ty _ _ _ _ => ty

def Setting.default : Setting → Option Value
  | .mk _ _ _ _ d _ _ => d

def Setting.children : Setting → SettingChildren
  | .mk _ _ _ _ _ _ c => c

def SettingChildren.isEmpty : SettingChildren → Bool
  | .nil => true
  | .cons _ _ _ => false

/-- Python `d[k] = v` on the children dict built by the comprehension in
`build_settings`: existing key keeps its position, fresh key appends. -/
def scSet : SettingChildren → String → Setting → SettingChildren
  | .nil, key, s => .cons key s .nil
  | .cons k v rest, key, s =>
    if k = key then .cons k s rest else .cons k v (scSet rest key s)

mutual
/-- `build_settings(name, schema)` (settings.py lines 147-173).  `name` is
the fully qualified dotted key.  All call sites omit the `default`
parameter, so the `schema.get("default", default)` fallback is always
`None` and the stored default is just the schema dict's own `default`.
For an `object` the children dict is built by inserting, for each entry of
`fields` in order, the child compiled under the qualified name
`f"{name}.{key}"`; for any other type there are no children. -/
def build_settings : String → SchemaDict → Setting
  | name, SchemaDict.mk _ title ty help default fields validate =>
    if ty = "object" then
      Setting.mk name title ty (help.getD "") default validate
        (buildChildren name fields .nil)
    else
      Setting.mk name title ty (help.getD "") default validate .nil
/-- The dict comprehension of `build_settings`: insert each compiled field
under its local key, in declaration order. -/
def buildChildren : String → SchemaFields → SettingChildren → SettingChildren
  | _, .nil, acc => acc
  | name, .cons f rest, acc =>
    buildChildren name rest
      (scSet acc f.key (build_settings (name ++ "." ++ f.key) f))
end

/-- The loop of `Schema.settings_map` (settings.py lines 175-178):
`form_settings[sub_schema["key"]] = build_settings(sub_schema["key"], sub_schema)`
for each top-level sub-schema in order. -/
def smAux : SchemaFields → List (String × Setting) → List (String × Setting)
  | .nil, acc => acc
  | .cons d rest, acc => smAux rest (dictSet acc d.key (build_settings d.key d))

/-- `Schema.settings_map` (settings.py lines 143-179), the compiled mapping
from each top-level key to its `Setting`.  (The `cached_property` caching of
the source is an operational detail with no counterpart in this pure
embedding; the function is deterministic in the schema.) -/
def Schema.settings_map (schema : SchemaFields) : List (String × Setting) :=
  smAux schema []

/-!
## `Schema.keys` (settings.py lines 129-141)
-/

mutual
/-- `get_keys(setting)` (settings.py lines 131-136): recurse into the
children of an `object` with a truthy (non-empty) children dict, otherwise
yield the setting's own fully qualified key.  Note that an `object` whose
children dict is empty (or `None`) falls into the `else` branch and yields
its own key. -/
def get_keys : Setting → List String
  | Setting.mk key _ ty _ _ _ children =>
    if ty = "object" ∧ ¬children.isEmpty then getKeysChildren children
    else [key]
/-- `get_keys` over `setting.children.values()` in insertion order. -/
def getKeysChildren : SettingChildren → List String
  | .nil => []
  | .cons _ s rest => get_keys s ++ getKeysChildren rest
end

/-- The comprehension of `Schema.keys` (lines 138-140): every key yielded by
`get_keys` over the values of `settings_map`, in order. -/
def keysOfList : List (String × Setting) → List String
  | [] => []
  | (_, s) :: rest => get_keys s ++ keysOfList rest

/-- `Schema.keys` (settings.py lines 129-141). -/
def Schema.keys (schema : SchemaFields) : List String :=
  keysOfList (Schema.settings_map schema)

/-!
## `Settings.get` (settings.py lines 189-197) and environment expansion

`Settings.get` resolves the key with `get_setting` and, when the result is a
string, passes it through `os.path.expandvars` against the process
environment.  `expandvars` is Python standard-library code that is not part
of this repository, so it is modelled from the spec below; the environment
is passed explicitly as an association list. -/

/-- A character that may appear in a `$NAME` variable reference:
alphanumeric or underscore. -/
def isVarChar (c : Char) : Bool := c.isAlphanum || c = '_'

def lbraceChar : Char := Char.ofNat 123

def rbraceChar : Char := Char.ofNat 125

/-- Environment lookup. -/
def envGet : List (String × String) → String → Option String
  | [], _ => none
  | (k, v) :: rest, key => if k = key then some v else envGet rest key

/-- Resolve an accumulated `$NAME` reference: substitute the variable's
value when the environment defines it, otherwise reproduce the reference
verbatim. -/
def resolveName (env : List (String × String)) (acc : List Char) : List Char :=
  match envGet env (String.mk acc) with
  | some v => v.data
  | none => '$' :: acc

/-- Resolve an accumulated `${NAME}` reference likewise. -/
def resolveBraced (env : List (String × String)) (acc : List Char) : List Char :=
  match envGet env (String.mk acc) with
  | some v => v.data
  | none => '$' :: lbraceChar :: (acc ++ [rbraceChar])

/-- Scanner state for `expandvars`: outside any reference, just after a
`$`, inside a `$NAME`, or inside a `${NAME}`. -/
inductive EState where
  | plain
  | afterDollar
  | name (acc : List Char)
  | braced (acc : List Char)

/-- Modelled from the spec: the scanning loop of `os.path.expandvars`
(Python standard library, not part of this repository), which substitutes
`$NAME` and `${NAME}`-style references with the process environment and
leaves unresolved names verbatim. -/
def expandLoop (env : List (String × String)) : List Char → EState → List Char
  | [], .plain => []
  | [], .afterDollar => ['$']
  | [], .name acc => resolveName env acc
  | [], .braced acc => '$' :: lbraceChar :: acc
  | c :: cs, .plain =>
    if c = '$' then expandLoop env cs .afterDollar
    else c :: expandLoop env cs .plain
  | c :: cs, .afterDollar =>
    if c = lbraceChar then expandLoop env cs (.braced [])
    else if isVarChar c then expandLoop env cs (.name [c])
    else '$' ::
      (if c = '$' then expandLoop env cs .afterDollar
       else c :: expandLoop env cs .plain)
  | c :: cs, .name acc =>
    if isVarChar c then expandLoop env cs (.name (acc ++ [c]))
    else resolveName env acc ++
      (if c = '$' then expandLoop env cs .afterDollar
       else c :: expandLoop env cs .plain)
  | c :: cs, .braced acc =>
    if c = rbraceChar then resolveBraced env acc ++ expandLoop env cs .plain
    else expandLoop env cs (.braced (acc ++ [c]))

/-- Modelled from the spec: `os.path.expandvars` — substitute
`$NAME`/`${NAME}` references with the current process environment, leaving
unresolved names verbatim. -/
def expandvars (env : List (String × String)) (s : String) : String :=
  String.mk (expandLoop env s.data .plain)

/-- `Settings.get` (settings.py lines 189-197): resolve the key with
`get_setting`; if the resolved value is a string, expand environment
variables in it before returning.  The process environment is an explicit
parameter `env`. -/
def Settings.get (env : List (String × String)) (settings : List (String × Value))
    (key : String) (t : PyType) : Except GetErr Value :=
  match get_setting settings key t with
  | .ok (Value.str s) => .ok (Value.str (expandvars env s))
  | r => r

/-!
## The concrete schema (`src/toad/settings_schema.py`)
-/

def SchemaFields.ofList : List SchemaDict → SchemaFields
  | [] => .nil
  | d :: rest => .cons d (ofList rest)

/-- The `SCHEMA` of settings_schema.py. -/
def SCHEMA : SchemaFields := .ofList [
  .mk "ui" "User interface settings" "object"
    (some "The following settings allow you to customize the look and feel of the User Interface.")
    none
    (.ofList [
      .mk "column" "Enable column?" "boolean"
        (some "Enable for a fixed column size. Disable to use the full screen width.")
        (some (.bool true)) .nil none,
      .mk "column-width" "Width of the column" "integer"
        (some "Width of the column if enabled.")
        (some (.int 100)) .nil
        (some [[("type", .str "minimum"), ("value", .int 40)]]),
      .mk "theme" "Theme" "choices"
        (some "One of the builtin Textual themes.")
        (some (.str "dracula")) .nil
        (some [[("type", .str "choices"),
                ("choices", .list [.str "textual-dark", .str "textual-light",
                  .str "nord", .str "gruvbox", .str "catppuccin-mocha",
                  .str "dracula", .str "tokyo-night", .str "monokai",
                  .str "flexoki", .str "catppuccin-late", .str "solarized-light"])]])])
    none,
  .mk "user" "User information" "object" (some "Your details.") none
    (.ofList [
      .mk "name" "Your name" "string" none (some (.str "$USER")) .nil none,
      .mk "email" "Your email" "string" none (some (.str "")) .nil
        (some [[("type", .str "is_email")]])])
    none,
  .mk "accounts" "User accounts" "object" (some "Account details here") none
    (.ofList [
      .mk "anthropic" "Anthropic account" "object"
        (some "Instructions how to get an API Key") none
        (.ofList [
          .mk "apikey" "API Key" "string" (some "Your API Key goes here")
            (some (.str "$ANTHROPIC_API_KEY")) .nil none])
        none,
      .mk "openai" "OpenAI account" "object"
        (some "Instructions how to get an OpenAPI API key") none
        (.ofList [
          .mk "apikey" "API Key" "string" (some "Your API key goes here")
            (some (.str "$OPENAI_API_KEY")) .nil none])
        none])
    none]

/-!
## Statement-side notions

These definitions exist to *state* the claims: dotted-key paths through a
schema definition, the depth-first leaf-key sequences the spec describes,
and a well-formedness predicate capturing the data-model invariants the
spec declares for schema definitions (keys unique within a level — §3:
"unique within the tree" — and free of the separator `.` — §4.3: "keys
must not otherwise contain `.`"). -/

/-- Rebuild a dotted key from its segments (the inverse of `parse_key` for
dot-free segments): this is how `build_settings` qualifies names with
`f"{name}.{key}"`. -/
def joinDots : List String → String
  | [] => ""
  | [s] => s
  | s :: rest => s ++ "." ++ joinDots rest

/-- The string contains no `.` separator. -/
def dotFree (s : String) : Bool := decide ('.' ∉ s.data)

mutual
/-- Well-formed schema definition list: locally unique, dot-free keys at
every level (the spec's stated invariants on schema definitions). -/
def wfFields : SchemaFields → Bool
  | .nil => true
  | .cons d rest =>
    wfDict d && !(decide (d.key ∈ rest.toList.map SchemaDict.key)) && wfFields rest
/-- Well-formed descriptor: dot-free key and well-formed nested fields. -/
def wfDict : SchemaDict → Bool
  | .mk key _ _ _ _ fields _ => dotFree key && wfFields fields
end

mutual
/-- The dotted-key paths contributed by one descriptor in the DFS that
mirrors `get_keys`: an `object` with non-empty `fields` contributes its
children's paths prefixed with its key; every other node (a leaf, or an
`object` with no fields) contributes its own single-segment path. -/
def nodePaths : SchemaDict → List (List String)
  | SchemaDict.mk key _ ty _ _ fields _ =>
    if ty = "object" ∧ ¬fields.isEmpty then
      (leafPaths fields).map (fun p => key :: p)
    else [[key]]
/-- Depth-first concatenation of `nodePaths` over a definition list, in
declaration order. -/
def leafPaths : SchemaFields → List (List String)
  | .nil => []
  | .cons d rest => nodePaths d ++ leafPaths rest
end

mutual
/-- The claim's own notion (spec §4.2): the DFS paths of the *leaf
(non-`object`)* nodes only — every `object` recurses, whether or not it has
fields. -/
def leafOnlyNode : SchemaDict → List (List String)
  | SchemaDict.mk key _ ty _ _ fields _ =>
    if ty = "object" then (leafOnlyPaths fields).map (fun p => key :: p)
    else [[key]]
/-- Depth-first concatenation of `leafOnlyNode` in declaration order. -/
def leafOnlyPaths : SchemaFields → List (List String)
  | .nil => []
  | .cons d rest => leafOnlyNode d ++ leafOnlyPaths rest
end

/-- First descriptor with the given local key, if any. -/
def findField : SchemaFields → String → Option SchemaDict
  | .nil, _ => none
  | .cons d rest, k => if d.key = k then some d else findField rest k

/-- The leaf descriptor a dotted-key path addresses in a schema definition:
all but the last segment must name `object` descriptors, the last segment a
non-`object` (leaf) descriptor. -/
def leafAt : SchemaFields → List String → Option SchemaDict
  | _, [] => none
  | fields, [k] =>
    match findField fields k with
    | some d => if d.type ≠ "object" then some d else none
    | none => none
  | fields, k :: rest =>
    match findField fields k with
    | some d => if d.type = "object" then leafAt d.fields rest else none
    | none => none

/-- Per-descriptor contribution of one `set_defaults` iteration, as an
optional dict entry (used to characterise `Schema.defaults` for unique
keys). -/
def defaultEntry : SchemaDict → Option (String × Value)
  | SchemaDict.mk key _ ty _ default fields _ =>
    if ty = "object" then
      if fields.isEmpty then none
      else some (key, Value.dict (setDefaults fields []))
    else
      default.map (fun v => (key, v))

/-- `defaultEntry` collected over a definition list. -/
def defaultsList : SchemaFields → List (String × Value)
  | .nil => []
  | .cons d rest =>
    match defaultEntry d with
    | none => defaultsList rest
    | some e => e :: defaultsList rest



/-- A schema whose single top-level entry is an `object` whose only child is
itself an empty `object`: no descendant declares a default. -/
def emptyGroupSchema : SchemaFields := .ofList [
  .mk "a" "Group" "object" none none
    (.ofList [.mk "b" "Inner group" "object" none none .nil none]) none]

/-- The two-field schema of the spec's concrete scenario: `ui.column`
(boolean, default `True`) and `ui.column-width` (integer, default `100`,
minimum `40`). -/
def columnSchema : SchemaFields := .ofList [
  .mk "ui" "User interface settings" "object" none none
    (.ofList [
      .mk "column" "Enable column?" "boolean" none (some (.bool true)) .nil none,
      .mk "column-width" "Width of the column" "integer" none
        (some (.int 100)) .nil
        (some [[("type", .str "minimum"), ("value", .int 40)]])])
    none]

/-- A schema whose single top-level entry is an `object` with no fields at
all (a childless, empty group). -/
def emptyObjectSchema : SchemaFields := .ofList [
  .mk "a" "Empty group" "object" none none .nil none]

/-- The suffix paths a descriptor contributes below its own key: for an
`object` with non-empty fields, its children's paths; otherwise the single
empty suffix (the node's own key ends the path). -/
def nodeSuffixes : SchemaDict → List (List String)
  | .mk _ _ ty _ _ fields _ =>
    if ty = "object" ∧ ¬fields.isEmpty then leafPaths fields else [[]]

/-- The outcome of a lookup is a normal return or a plain `KeyError` raised
by a missed dict lookup — not `InvalidValue`, not the assertion failure, and
(a fortiori) not `InvalidKey`, which `get_setting` cannot raise at all. -/
def okOrKeyError (r : Except GetErr Value) : Prop :=
  (∃ v, r = .ok v) ∨ (∃ c, r = .error (.keyError c))

/-- The keys of a children dict, in insertion order. -/
def scKeys : SettingChildren → List String
  | .nil => []
  | .cons k _ rest => k :: scKeys rest

/-!
## Induction principles

The mutually inductive pairs only generate joint recursors; these wrappers
give the list-shaped halves ordinary list-style induction, and the joint
versions a two-motive induction principle.
-/

theorem schemaFieldsInd (Q : SchemaFields → Prop)
    (hnil : Q .nil) (hcons : ∀ d rest, Q rest → Q (.cons d rest)) :
    ∀ fs, Q fs :=
  fun fs =>
    @SchemaFields.rec (fun _ => True) Q (fun _ _ _ _ _ _ _ _ => trivial) hnil
      (fun d rest _ ih => hcons d rest ih) fs

theorem schemaMutualInd (P : SchemaDict → Prop) (Q : SchemaFields → Prop)
    (hmk : ∀ key title ty help default fields validate,
      Q fields → P (.mk key title ty help default fields validate))
    (hnil : Q .nil) (hcons : ∀ d rest, P d → Q rest → Q (.cons d rest)) :
    (∀ d, P d) ∧ (∀ fs, Q fs) :=
  ⟨fun d => @SchemaDict.rec P Q hmk hnil hcons d,
   fun fs => @SchemaFields.rec P Q hmk hnil hcons fs⟩

theorem settingChildrenInd (Q : SettingChildren → Prop)
    (hnil : Q .nil) (hcons : ∀ k s rest, Q rest → Q (.cons k s rest)) :
    ∀ cs, Q cs :=
  fun cs =>
    @SettingChildren.rec (fun _ => True) Q (fun _ _ _ _ _ _ _ _ => trivial) hnil
      (fun k s rest _ ih => hcons k s rest ih) cs

/-!
## Basic lemmas
-/

theorem splitDotAux_ne_nil (cs : List Char) : ∀ acc, splitDotAux cs acc ≠ [] := by
  induction cs with
  | nil => intro acc; simp [splitDotAux]
  | cons c rest ih =>
    intro acc
    by_cases h : c = '.' <;> simp only [splitDotAux, h, if_pos, if_neg] <;> simp
    exact ih _

theorem parse_key_ne_nil (key : String) : parse_key key ≠ [] :=
  splitDotAux_ne_nil key.data []

theorem getSettingAux_ne_postLoop (t : PyType) (full : String) :
    ∀ (segs : List String) (settings : List (String × Value)), segs ≠ [] →
      ∀ s, getSettingAux t full settings segs ≠ .error (.keyErrorPostLoop s) := by
  intro segs
  induction segs with
  | nil => intro settings h; exact absurd rfl h
  | cons k rest ih =>
    intro settings _ s
    cases rest with
    | nil =>
      rcases hd : dictGet settings k with _ | v
      · simp [getSettingAux, hd]
      · cases hi : isinst v t <;> simp [getSettingAux, hd, hi]
    | cons k2 rest2 =>
      rcases hd : dictGet settings k with _ | v
      · simp [getSettingAux, hd]
      · cases v <;> simp [getSettingAux, hd]
        exact ih _ (by simp) s

/-!
## Claim theorems (part 1)
-/

/-- C10: for every input key, `parse_key` (splitting on `.`) yields at least
one segment, so the loop of `get_setting` always returns or raises on its
final iteration and the trailing `raise KeyError(key)` after the loop is
never reached. -/
theorem c10_trailing_raise_unreachable (settings : List (String × Value))
    (key : String) (t : PyType) :
    parse_key key ≠ [] ∧
      ∀ s, get_setting settings key t ≠ .error (.keyErrorPostLoop s) :=
  ⟨parse_key_ne_nil key,
   getSettingAux_ne_postLoop t key (parse_key key) settings (parse_key_ne_nil key)⟩

/-- C1 (code bug): contrary to the claim, `Schema.set_value` on the
schema-valid key `"ui.column"` does not store a retrievable value: the
membership test `key not in schema` compares the string segment with the
top-level *list* of schema dicts, never succeeds, and `InvalidKey` is raised
on the first iteration, leaving the values tree empty, so the subsequent
`get_setting` raises `KeyError("ui")`. -/
theorem c1_set_value_raises_on_valid_key :
    Schema.set_value SCHEMA [] "ui.column" (Value.bool false)
        = ([], some SetErr.invalidKey) ∧
      get_setting [] "ui.column" PyType.object = .error (.keyError "ui") :=
  ⟨rfl, rfl⟩

/-- C2 (code bug): contrary to the claim, `Schema.set_value` with the
unschema'd single-segment key `"nope"` does raise `InvalidKey`, but only
*after* `settings[key] = value` has run (`if last:` precedes the membership
check), so the values tree is left mutated: the unschema'd entry survives
the exception. -/
theorem c2_set_value_mutates_unschemad_key :
    Schema.set_value SCHEMA [] "nope" (Value.int 1)
      = ([("nope", Value.int 1)], some SetErr.invalidKey) :=
  rfl

/-- C3 counterexample: for the schema with one `object` whose only child is
an empty `object` (no descendant declares any default), `Schema.defaults`
does *not* omit the top-level key — it maps it to an empty nested
mapping. -/
theorem c3_counterexample_key_not_omitted :
    Schema.defaults emptyGroupSchema = [("a", Value.dict [])] ∧
      (dictGet (Schema.defaults emptyGroupSchema) "a").isSome = true :=
  ⟨rfl, rfl⟩

/-- C3 (amended): `Schema.defaults` omits a top-level `object`'s key exactly
when its `fields` list is empty (or absent); whenever `fields` is non-empty
a nested mapping is created under the key — possibly empty — regardless of
whether any descendant declares a default. -/
theorem c3_amended_object_key_iff_fields_nonempty
    (k t : String) (h : Option String) (df : Option Value) (fs : SchemaFields)
    (va : Option (List (List (String × Value)))) :
    Schema.defaults (.cons (.mk k t "object" h df fs va) .nil)
      = if fs.isEmpty then [] else [(k, Value.dict (Schema.defaults fs))] := by
  by_cases hf : fs.isEmpty <;>
    simp [Schema.defaults, setDefaults, setDefaults1, dictSet, hf]

/-- C4: for the two-field scenario schema, `defaults()` yields
`{"ui": {"column": True, "column-width": 100}}`; `get_setting` with `int`
returns `100`; `get_setting` with `str` raises `InvalidValue`. -/
theorem c4_concrete_scenario :
    Schema.defaults columnSchema
        = [("ui", Value.dict [("column", .bool true), ("column-width", .int 100)])] ∧
      get_setting (Schema.defaults columnSchema) "ui.column-width" PyType.int
        = .ok (.int 100) ∧
      get_setting (Schema.defaults columnSchema) "ui.column-width" PyType.str
        = .error .invalidValue :=
  ⟨rfl, rfl, rfl⟩

/-- C8: `Settings.get` expands environment-variable references in a textual
resolved value at read time: with values tree `{"user": {"name": "$USER"}}`
and environment `USER=alice`, it returns `"alice"`; a reference to an unset
variable is returned verbatim. -/
theorem c8_environment_expansion :
    Settings.get [("USER", "alice")] [("user", .dict [("name", .str "$USER")])]
        "user.name" PyType.str = .ok (.str "alice") ∧
      Settings.get [("USER", "alice")]
        [("user", .dict [("name", .str "$UNSET_VAR")])]
        "user.name" PyType.str = .ok (.str "$UNSET_VAR") :=
  ⟨rfl, rfl⟩

/-!
## Dictionary lemmas
-/

theorem dictSet_of_not_mem {α : Type} (l : List (String × α)) (k : String) (v : α)
    (h : k ∉ l.map Prod.fst) : dictSet l k v = l ++ [(k, v)] := by
  induction l with
  | nil => rfl
  | cons p rest ih =>
    obtain ⟨k0, v0⟩ := p
    simp only [List.map_cons, List.mem_cons, not_or] at h
    simp [dictSet, Ne.symm h.1, ih h.2]

theorem dictGet_append {α : Type} (l1 l2 : List (String × α)) (k : String) :
    dictGet (l1 ++ l2) k =
      match dictGet l1 k with
      | some v => some v
      | none => dictGet l2 k := by
  induction l1 with
  | nil => simp [dictGet]
  | cons p rest ih =>
    obtain ⟨k0, v0⟩ := p
    by_cases h : k0 = k <;> simp [dictGet, h, ih]

theorem dictGet_eq_none_of_not_mem {α : Type} (l : List (String × α)) (k : String)
    (h : k ∉ l.map Prod.fst) : dictGet l k = none := by
  induction l with
  | nil => rfl
  | cons p rest ih =>
    obtain ⟨k0, v0⟩ := p
    simp only [List.map_cons, List.mem_cons, not_or] at h
    simp [dictGet, Ne.symm h.1, ih h.2]

/-!
## Well-formedness extraction lemmas
-/

theorem wfDict_parts (d : SchemaDict) (h : wfDict d = true) :
    dotFree d.key = true ∧ wfFields d.fields = true := by
  cases d with
  | mk k t ty hp df fs va =>
    simpa [wfDict, SchemaDict.key, SchemaDict.fields, Bool.and_eq_true] using h

theorem wfFields_cons (d : SchemaDict) (rest : SchemaFields)
    (h : wfFields (.cons d rest) = true) :
    wfDict d = true ∧ d.key ∉ rest.toList.map SchemaDict.key ∧
      wfFields rest = true := by
  simp only [wfFields, Bool.and_eq_true, Bool.not_eq_true'] at h
  exact ⟨h.1.1, of_decide_eq_false h.1.2, h.2⟩

theorem wfFields_mem (fs : SchemaFields) (h : wfFields fs = true) :
    ∀ d ∈ fs.toList, wfDict d = true := by
  induction fs using schemaFieldsInd with
  | hnil => intro d hd; simp [SchemaFields.toList] at hd
  | hcons d0 rest ih =>
    intro d hd
    obtain ⟨h1, _, h3⟩ := wfFields_cons d0 rest h
    rcases (List.mem_cons).mp hd with rfl | hd'
    · exact h1
    · exact ih h3 d hd'

theorem wfFields_nodup (fs : SchemaFields) (h : wfFields fs = true) :
    (fs.toList.map SchemaDict.key).Nodup := by
  induction fs using schemaFieldsInd with
  | hnil => simp [SchemaFields.toList]
  | hcons d0 rest ih =>
    obtain ⟨_, h2, h3⟩ := wfFields_cons d0 rest h
    simp only [SchemaFields.toList, List.map_cons, List.nodup_cons]
    refine ⟨?_, ih h3⟩
    intro he
    exact h2 he

/-!
## `findField` lemmas
-/

theorem findField_key (fs : SchemaFields) (k : String) (d : SchemaDict)
    (h : findField fs k = some d) : d.key = k := by
  induction fs using schemaFieldsInd with
  | hnil => simp [findField] at h
  | hcons d0 rest ih =>
    by_cases h0 : d0.key = k
    · simp only [findField, h0, if_pos] at h
      cases h; exact h0
    · simp only [findField, h0, if_neg, if_false] at h
      exact ih h

theorem findField_mem (fs : SchemaFields) (k : String) (d : SchemaDict)
    (h : findField fs k = some d) : d ∈ fs.toList := by
  induction fs using schemaFieldsInd with
  | hnil => simp [findField] at h
  | hcons d0 rest ih =>
    by_cases h0 : d0.key = k
    · simp only [findField, h0, if_pos] at h
      cases h; simp [SchemaFields.toList]
    · simp only [findField, h0, if_neg, if_false] at h
      simp [SchemaFields.toList, ih h]

theorem findField_of_mem_nodup (fs : SchemaFields)
    (hnd : (fs.toList.map SchemaDict.key).Nodup) (d : SchemaDict)
    (hd : d ∈ fs.toList) : findField fs d.key = some d := by
  induction fs using schemaFieldsInd with
  | hnil => simp [SchemaFields.toList] at hd
  | hcons d0 rest ih =>
    simp only [SchemaFields.toList, List.map_cons, List.nodup_cons] at hnd
    rcases (List.mem_cons).mp hd with rfl | hd'
    · simp [findField]
    · have hne : d0.key ≠ d.key := by
        intro he
        exact hnd.1 (he ▸ List.mem_map_of_mem SchemaDict.key hd')
      simp [findField, hne, ih hnd.2 hd']

/-!
## `isinst` lemmas
-/

theorem isinst_object (v : Value) : isinst v .object = true := by
  cases v <;> rfl

theorem isinst_pyTypeOf (v : Value) : isinst v (pyTypeOf v) = true := by
  cases v <;> rfl

/-!
## Characterising `Schema.defaults` for unique keys
-/

theorem setDefaults1_eq (d : SchemaDict) (settings : List (String × Value)) :
    setDefaults1 d settings =
      match defaultEntry d with
      | none => settings
      | some e => dictSet settings e.1 e.2 := by
  cases d with
  | mk k t ty hp df fs va =>
    by_cases hty : ty = "object"
    · by_cases hf : fs.isEmpty <;> simp [setDefaults1, defaultEntry, hty, hf]
    · cases df <;> simp [setDefaults1, defaultEntry, hty]

theorem defaultEntry_key (d : SchemaDict) (e : String × Value)
    (h : defaultEntry d = some e) : e.1 = d.key := by
  cases d with
  | mk k t ty hp df fs va =>
    by_cases hty : ty = "object"
    · by_cases hf : fs.isEmpty <;>
        simp only [defaultEntry, hty, hf, if_pos, if_neg, if_true, if_false] at h
      · simp at h
      · cases h; rfl
    · cases df with
      | none => simp [defaultEntry, hty] at h
      | some v =>
        simp only [defaultEntry, hty, if_neg, Option.map_some'] at h
        cases h; rfl

theorem defaultsList_keys_sub (fs : SchemaFields) (k : String)
    (h : k ∈ (defaultsList fs).map Prod.fst) :
    k ∈ fs.toList.map SchemaDict.key := by
  induction fs using schemaFieldsInd with
  | hnil => simp [defaultsList] at h
  | hcons d rest ih =>
    simp only [SchemaFields.toList, List.map_cons, List.mem_cons]
    rcases he : defaultEntry d with _ | e
    · simp only [defaultsList, he] at h
      exact Or.inr (ih h)
    · simp only [defaultsList, he, List.map_cons, List.mem_cons] at h
      rcases h with h | h
      · exact Or.inl (h.trans (defaultEntry_key d e he))
      · exact Or.inr (ih h)

theorem setDefaults_eq_append (fs : SchemaFields) :
    ∀ settings : List (String × Value),
      (fs.toList.map SchemaDict.key).Nodup →
      (∀ d ∈ fs.toList, d.key ∉ settings.map Prod.fst) →
      setDefaults fs settings = settings ++ defaultsList fs := by
  induction fs using schemaFieldsInd with
  | hnil => intro settings _ _; simp [setDefaults, defaultsList]
  | hcons d rest ih =>
    intro settings hnd hdis
    simp only [SchemaFields.toList, List.map_cons, List.nodup_cons] at hnd
    have hd0 : d.key ∉ settings.map Prod.fst :=
      hdis d (by simp [SchemaFields.toList])
    rcases he : defaultEntry d with _ | e
    · have : setDefaults1 d settings = settings := by rw [setDefaults1_eq, he]
      rw [setDefaults, this, defaultsList, he]
      exact ih settings hnd.2 (fun d' hd' => hdis d' (by simp [SchemaFields.toList, hd']))
    · have hkey := defaultEntry_key d e he
      have : setDefaults1 d settings = settings ++ [e] := by
        rw [setDefaults1_eq, he]
        have := dictSet_of_not_mem settings e.1 e.2 (hkey ▸ hd0)
        simpa using this
      rw [setDefaults, this, defaultsList, he]
      have step := ih (settings ++ [e]) hnd.2 ?_
      · rw [step, List.append_assoc]; rfl
      · intro d' hd'
        simp only [List.map_append, List.mem_append]
        intro hc
        rcases hc with hc | hc
        · exact hdis d' (by simp [SchemaFields.toList, hd']) hc
        · simp only [List.map_cons, List.map_nil, List.mem_cons, List.not_mem_nil] at hc
          rcases hc with hc | hc
          · exact hnd.1 ((hc.trans hkey) ▸ List.mem_map_of_mem SchemaDict.key hd')
          · exact hc.elim

theorem defaults_eq_defaultsList (fs : SchemaFields)
    (hnd : (fs.toList.map SchemaDict.key).Nodup) :
    Schema.defaults fs = defaultsList fs := by
  have := setDefaults_eq_append fs [] hnd (by simp)
  simpa [Schema.defaults] using this

theorem dictGet_defaultsList_none (fs : SchemaFields) (k : String)
    (h : k ∉ fs.toList.map SchemaDict.key) :
    dictGet (defaultsList fs) k = none := by
  refine dictGet_eq_none_of_not_mem _ _ (fun hc => h ?_)
  exact defaultsList_keys_sub fs k hc

theorem dictGet_defaultsList (fs : SchemaFields) (k : String) (d : SchemaDict)
    (hnd : (fs.toList.map SchemaDict.key).Nodup)
    (hf : findField fs k = some d) :
    dictGet (defaultsList fs) k = (defaultEntry d).map Prod.snd := by
  induction fs using schemaFieldsInd with
  | hnil => simp [findField] at hf
  | hcons d0 rest ih =>
    simp only [SchemaFields.toList, List.map_cons, List.nodup_cons] at hnd
    by_cases h0 : d0.key = k
    · simp only [findField, h0, if_pos] at hf
      cases hf
      rcases he : defaultEntry d with _ | e
      · simp only [defaultsList, he, Option.map_none']
        exact dictGet_defaultsList_none rest k (h0 ▸ hnd.1)
      · have hkey := defaultEntry_key d e he
        simp [defaultsList, he, dictGet, hkey, h0]
    · simp only [findField, h0, if_neg, if_false] at hf
      rcases he : defaultEntry d0 with _ | e
      · simp only [defaultsList, he]
        exact ih hnd.2 hf
      · have hkey := defaultEntry_key d0 e he
        have : e.1 ≠ k := hkey ▸ h0
        simp only [defaultsList, he, dictGet, this, if_neg, if_false]
        exact ih hnd.2 hf

/-!
## `defaultEntry` shape lemmas and `leafAt` facts
-/

theorem defaultEntry_leaf (d : SchemaDict) (hty : d.type ≠ "object") :
    defaultEntry d = d.default.map (fun v => (d.key, v)) := by
  cases d with
  | mk k t ty hp df fs va =>
    simp only [SchemaDict.type] at hty
    simp [defaultEntry, SchemaDict.default, SchemaDict.key, hty]

theorem defaultEntry_object (d : SchemaDict) (hty : d.type = "object")
    (hne : ¬d.fields.isEmpty = true) :
    defaultEntry d = some (d.key, Value.dict (Schema.defaults d.fields)) := by
  cases d with
  | mk k t ty hp df fs va =>
    simp only [SchemaDict.type] at hty
    simp only [SchemaDict.fields] at hne
    simp [defaultEntry, SchemaDict.key, SchemaDict.fields, hty, hne, Schema.defaults]

theorem leafAt_nil_fields (segs : List String) :
    leafAt SchemaFields.nil segs = none := by
  cases segs with
  | nil => rfl
  | cons k rest =>
    cases rest with
    | nil => simp [leafAt, findField]
    | cons k2 rest2 => simp [leafAt, findField]

/-- The central lookup lemma for the round-trip claim: a leaf addressed by a
segment path, carrying a declared default, is found by the `get_setting`
loop in the defaults tree with exactly its default value. -/
theorem leafAt_getSettingAux (segs : List String) :
    ∀ (fs : SchemaFields) (d : SchemaDict) (v : Value) (full : String),
      wfFields fs = true → leafAt fs segs = some d → d.default = some v →
      getSettingAux (pyTypeOf v) full (Schema.defaults fs) segs = .ok v := by
  induction segs with
  | nil => intro fs d v full _ h2 _; simp [leafAt] at h2
  | cons k rest ih =>
    intro fs d v full h1 h2 h3
    have hnd := wfFields_nodup fs h1
    cases rest with
    | nil =>
      rcases hf : findField fs k with _ | d0
      · simp [leafAt, hf] at h2
      · simp only [leafAt, hf] at h2
        by_cases hty : d0.type ≠ "object"
        · rw [if_pos hty] at h2
          injection h2 with h2
          subst h2
          have hde : defaultEntry d0 = some (d0.key, v) := by
            rw [defaultEntry_leaf d0 hty, h3]; rfl
          have hg : dictGet (Schema.defaults fs) k = some v := by
            rw [defaults_eq_defaultsList fs hnd,
              dictGet_defaultsList fs k d0 hnd hf, hde]
            rfl
          simp [getSettingAux, hg, isinst_pyTypeOf]
        · rw [if_neg hty] at h2
          exact Option.noConfusion h2
    | cons k2 rest2 =>
      rcases hf : findField fs k with _ | d0
      · simp [leafAt, hf] at h2
      · simp only [leafAt, hf] at h2
        by_cases hty : d0.type = "object"
        · rw [if_pos hty] at h2
          have hne : ¬d0.fields.isEmpty = true := by
            intro he
            have : d0.fields = SchemaFields.nil := by
              cases hfs : d0.fields with
              | nil => rfl
              | cons a b => rw [hfs] at he; simp [SchemaFields.isEmpty] at he
            rw [this, leafAt_nil_fields] at h2
            exact Option.noConfusion h2
          have hde := defaultEntry_object d0 hty hne
          have hg : dictGet (Schema.defaults fs) k
              = some (Value.dict (Schema.defaults d0.fields)) := by
            rw [defaults_eq_defaultsList fs hnd,
              dictGet_defaultsList fs k d0 hnd hf, hde]
            rfl
          have hwf0 : wfFields d0.fields = true :=
            (wfDict_parts d0 (wfFields_mem fs h1 d0 (findField_mem fs k d0 hf))).2
          simp only [getSettingAux, hg]
          exact ih d0.fields d v full hwf0 h2 h3
        · rw [if_neg hty] at h2
          exact Option.noConfusion h2

/-!
## Splitting a joined dotted key
-/

theorem String_mk_data (s : String) : String.mk s.data = s := by
  cases s; rfl

theorem splitDotAux_no_dot (cs : List Char) :
    ∀ acc, '.' ∉ cs → splitDotAux cs acc = [String.mk (acc.reverse ++ cs)] := by
  induction cs with
  | nil => intro acc _; simp [splitDotAux]
  | cons c rest ih =>
    intro acc h
    simp only [List.mem_cons, not_or] at h
    rw [splitDotAux, if_neg (Ne.symm h.1), ih (c :: acc) h.2]
    simp

theorem splitDotAux_dot_append (cs1 : List Char) :
    ∀ (cs2 : List Char) (acc : List Char), '.' ∉ cs1 →
      splitDotAux (cs1 ++ '.' :: cs2) acc
        = String.mk (acc.reverse ++ cs1) :: splitDotAux cs2 [] := by
  induction cs1 with
  | nil => intro cs2 acc _; simp [splitDotAux]
  | cons c rest ih =>
    intro cs2 acc h
    simp only [List.mem_cons, not_or] at h
    rw [List.cons_append, splitDotAux, if_neg (Ne.symm h.1), ih cs2 (c :: acc) h.2]
    simp

theorem joinDots_cons (a : String) (p : List String) (hp : p ≠ []) :
    joinDots (a :: p) = a ++ "." ++ joinDots p := by
  cases p with
  | nil => exact absurd rfl hp
  | cons b rest => rfl

theorem joinDots_dot (a b : String) (p : List String) :
    joinDots ((a ++ "." ++ b) :: p) = a ++ "." ++ joinDots (b :: p) := by
  cases p with
  | nil => rfl
  | cons c rest =>
    show (a ++ "." ++ b) ++ "." ++ joinDots (c :: rest)
        = a ++ "." ++ (b ++ "." ++ joinDots (c :: rest))
    simp [String.append_assoc]

theorem parse_key_joinDots (p : List String) :
    p ≠ [] → (∀ s ∈ p, dotFree s = true) → parse_key (joinDots p) = p := by
  induction p with
  | nil => intro hne _; exact absurd rfl hne
  | cons a rest ih =>
    intro _ hdf
    have hda : '.' ∉ a.data :=
      of_decide_eq_true (hdf a (List.mem_cons_self a rest))
    cases rest with
    | nil =>
      show splitDotAux (joinDots [a]).data [] = [a]
      have : joinDots [a] = a := rfl
      rw [this, splitDotAux_no_dot a.data [] hda]
      simp [String_mk_data]
    | cons b rest2 =>
      rw [joinDots_cons a (b :: rest2) (by simp)]
      show splitDotAux (a ++ "." ++ joinDots (b :: rest2)).data [] = a :: b :: rest2
      have hdata : (a ++ "." ++ joinDots (b :: rest2)).data
          = a.data ++ '.' :: (joinDots (b :: rest2)).data := by
        rw [String.data_append, String.data_append]
        simp
      rw [hdata, splitDotAux_dot_append a.data _ [] hda]
      have htail : splitDotAux (joinDots (b :: rest2)).data [] = b :: rest2 :=
        ih (by simp) (fun s hs => hdf s (List.mem_cons_of_mem a hs))
      rw [htail]
      simp [String_mk_data]

theorem leafAt_dotFree (segs : List String) :
    ∀ fs : SchemaFields, wfFields fs = true →
      ∀ d : SchemaDict, leafAt fs segs = some d →
      ∀ s ∈ segs, dotFree s = true := by
  induction segs with
  | nil => intro fs _ d h2; simp [leafAt] at h2
  | cons k rest ih =>
    intro fs h1 d h2 s hs
    have hkey : ∀ d0 : SchemaDict, findField fs k = some d0 → dotFree k = true := by
      intro d0 hf
      have := (wfDict_parts d0 (wfFields_mem fs h1 d0 (findField_mem fs k d0 hf))).1
      rwa [findField_key fs k d0 hf] at this
    cases rest with
    | nil =>
      rcases hf : findField fs k with _ | d0
      · simp [leafAt, hf] at h2
      · simp only [List.mem_cons, List.not_mem_nil, or_false] at hs
        subst hs
        exact hkey d0 hf
    | cons k2 rest2 =>
      rcases hf : findField fs k with _ | d0
      · simp [leafAt, hf] at h2
      · simp only [leafAt, hf] at h2
        by_cases hty : d0.type = "object"
        · rw [if_pos hty] at h2
          rcases (List.mem_cons).mp hs with rfl | hs'
          · exact hkey d0 hf
          · have hwf0 : wfFields d0.fields = true :=
              (wfDict_parts d0 (wfFields_mem fs h1 d0 (findField_mem fs k d0 hf))).2
            exact ih d0.fields hwf0 d h2 s hs'
        · rw [if_neg hty] at h2
          exact Option.noConfusion h2

theorem leafAt_ne_nil (fs : SchemaFields) (segs : List String) (d : SchemaDict)
    (h : leafAt fs segs = some d) : segs ≠ [] := by
  intro he
  subst he
  simp [leafAt] at h

/-!
## Claim theorems (part 2)
-/

/-- C6: round-trip through defaults — for every well-formed schema and every
leaf descriptor addressed by a dotted-key path and declaring a default `v`,
`get_setting` applied to `Schema.defaults` with the joined dotted key and
the Python type of `v` returns exactly `v`.  (In this pure embedding,
`Schema.defaults` is a function of the schema alone and `get_setting` takes
no mutable state, so repeated calls trivially cannot mutate the defaults;
the mathematical content is the round-trip equation.) -/
theorem c6_defaults_roundtrip (fs : SchemaFields) (segs : List String)
    (d : SchemaDict) (v : Value) (h1 : wfFields fs = true)
    (h2 : leafAt fs segs = some d) (h3 : d.default = some v) :
    get_setting (Schema.defaults fs) (joinDots segs) (pyTypeOf v) = .ok v := by
  unfold get_setting
  rw [parse_key_joinDots segs (leafAt_ne_nil fs segs d h2)
    (leafAt_dotFree segs fs h1 d h2)]
  exact leafAt_getSettingAux segs fs d v (joinDots segs) h1 h2 h3

/-- Witness for C6 at the concrete `SCHEMA`: the leaf `ui.column-width`
declares default `100`, and the round-trip returns it. -/
theorem c6_defaults_roundtrip_witness :
    wfFields SCHEMA = true ∧
      leafAt SCHEMA ["ui", "column-width"]
        = some (.mk "column-width" "Width of the column" "integer"
            (some "Width of the column if enabled.") (some (.int 100)) .nil
            (some [[("type", .str "minimum"), ("value", .int 40)]])) ∧
      get_setting (Schema.defaults SCHEMA) (joinDots ["ui", "column-width"])
        (pyTypeOf (Value.int 100)) = .ok (.int 100) :=
  ⟨rfl, rfl,
   c6_defaults_roundtrip SCHEMA ["ui", "column-width"]
     (.mk "column-width" "Width of the column" "integer"
       (some "Width of the column if enabled.") (some (.int 100)) .nil
       (some [[("type", .str "minimum"), ("value", .int 40)]]))
     (Value.int 100) rfl rfl rfl⟩

/-!
## `leafPaths` decomposition
-/

theorem leafPaths_mem (fs : SchemaFields) (p : List String)
    (h : p ∈ leafPaths fs) : ∃ d ∈ fs.toList, p ∈ nodePaths d := by
  induction fs using schemaFieldsInd with
  | hnil => simp [leafPaths] at h
  | hcons d rest ih =>
    simp only [leafPaths, List.mem_append] at h
    rcases h with h | h
    · exact ⟨d, by simp [SchemaFields.toList], h⟩
    · obtain ⟨d', hd', hp'⟩ := ih h
      exact ⟨d', by simp [SchemaFields.toList, hd'], hp'⟩

theorem nodePaths_shape (d : SchemaDict) (p : List String)
    (h : p ∈ nodePaths d) :
    (d.type = "object" ∧ ¬d.fields.isEmpty = true ∧
      ∃ p', p = d.key :: p' ∧ p' ∈ leafPaths d.fields) ∨
    p = [d.key] := by
  cases d with
  | mk k t ty hp df fs va =>
    simp only [SchemaDict.type, SchemaDict.fields, SchemaDict.key]
    by_cases hc : ty = "object" ∧ ¬fs.isEmpty = true
    · simp only [nodePaths, hc, if_pos] at h
      obtain ⟨p', hp', heq⟩ := List.mem_map.mp h
      exact Or.inl ⟨hc.1, hc.2, p', heq.symm, hp'⟩
    · simp only [nodePaths, hc, if_neg, if_false, List.mem_singleton] at h
      exact Or.inr h

theorem nodePaths_eq_suffixes (d : SchemaDict) :
    nodePaths d = (nodeSuffixes d).map (fun p => d.key :: p) := by
  cases d with
  | mk k t ty hp df fs va =>
    cases hfe : fs.isEmpty <;> by_cases hty : ty = "object" <;>
      simp [nodePaths, nodeSuffixes, SchemaDict.key, hfe, hty]

theorem leafPaths_mem_ne_nil (fs : SchemaFields) (p : List String)
    (h : p ∈ leafPaths fs) : p ≠ [] := by
  obtain ⟨d, _, hp⟩ := leafPaths_mem fs p h
  rcases nodePaths_shape d p hp with ⟨_, _, p', rfl, _⟩ | rfl <;> simp

theorem leafPaths_dotFree (p : List String) :
    ∀ fs : SchemaFields, wfFields fs = true → p ∈ leafPaths fs →
      ∀ s ∈ p, dotFree s = true := by
  induction p with
  | nil => intro fs _ _ s hs; simp at hs
  | cons k p' ih =>
    intro fs h1 hp s hs
    obtain ⟨d, hd, hnp⟩ := leafPaths_mem fs (k :: p') hp
    have hwfd := wfFields_mem fs h1 d hd
    rcases nodePaths_shape d (k :: p') hnp with ⟨_, _, p'', heq, hp''⟩ | heq
    · cases heq
      rcases (List.mem_cons).mp hs with rfl | hs'
      · exact (wfDict_parts d hwfd).1
      · exact ih d.fields (wfDict_parts d hwfd).2 hp'' s hs'
    · cases heq
      simp only [List.mem_cons, List.not_mem_nil, or_false] at hs
      subst hs
      exact (wfDict_parts d hwfd).1

/-- The central safety lemma for schema-consistent lookups: along any path
of `leafPaths`, the `get_setting` loop over the defaults tree of a
well-formed schema either returns or fails with a plain `KeyError`. -/
theorem leafPaths_getSettingAux (p : List String) :
    ∀ (fs : SchemaFields) (full : String), wfFields fs = true →
      p ∈ leafPaths fs →
      okOrKeyError (getSettingAux .object full (Schema.defaults fs) p) := by
  induction p with
  | nil =>
    intro fs full _ hp
    exact absurd rfl (leafPaths_mem_ne_nil fs [] hp)
  | cons k p' ih =>
    intro fs full h1 hp
    have hnd := wfFields_nodup fs h1
    obtain ⟨d, hd, hnp⟩ := leafPaths_mem fs (k :: p') hp
    have hwfd := wfFields_mem fs h1 d hd
    rcases nodePaths_shape d (k :: p') hnp with ⟨hty, hne, p'', heq, hp''⟩ | heq
    · cases heq
      have hf : findField fs d.key = some d := findField_of_mem_nodup fs hnd d hd
      have hg : dictGet (Schema.defaults fs) d.key
          = some (Value.dict (Schema.defaults d.fields)) := by
        rw [defaults_eq_defaultsList fs hnd,
          dictGet_defaultsList fs d.key d hnd hf, defaultEntry_object d hty hne]
        rfl
      obtain ⟨k2, rest2, heq2⟩ :=
        List.exists_cons_of_ne_nil (leafPaths_mem_ne_nil d.fields p' hp'')
      subst heq2
      simp only [getSettingAux, hg]
      exact ih d.fields full (wfDict_parts d hwfd).2 hp''
    · cases heq
      rcases hg : dictGet (Schema.defaults fs) d.key with _ | v
      · exact Or.inr ⟨d.key, by simp [getSettingAux, hg]⟩
      · exact Or.inl ⟨v, by simp [getSettingAux, hg, isinst_object]⟩

/-!
## Children dicts of compiled settings
-/

theorem scIsEmpty_iff (cs : SettingChildren) :
    SettingChildren.isEmpty cs = true ↔ cs = .nil := by
  cases cs <;> simp [SettingChildren.isEmpty]

theorem sfIsEmpty_iff (fs : SchemaFields) :
    SchemaFields.isEmpty fs = true ↔ fs = .nil := by
  cases fs <;> simp [SchemaFields.isEmpty]

theorem scKeys_scSet (acc : SettingChildren) (k : String) (s : Setting)
    (h : k ∉ scKeys acc) : scKeys (scSet acc k s) = scKeys acc ++ [k] := by
  induction acc using settingChildrenInd with
  | hnil => rfl
  | hcons k0 s0 rest ih =>
    simp only [scKeys, List.mem_cons, not_or] at h
    simp [scSet, scKeys, Ne.symm h.1, ih h.2]

theorem getKeysChildren_scSet (acc : SettingChildren) (k : String) (s : Setting)
    (h : k ∉ scKeys acc) :
    getKeysChildren (scSet acc k s) = getKeysChildren acc ++ get_keys s := by
  induction acc using settingChildrenInd with
  | hnil => simp [scSet, getKeysChildren]
  | hcons k0 s0 rest ih =>
    simp only [scKeys, List.mem_cons, not_or] at h
    simp [scSet, getKeysChildren, Ne.symm h.1, ih h.2]

theorem buildChildren_scKeys (fs : SchemaFields) :
    ∀ (name : String) (acc : SettingChildren),
      (fs.toList.map SchemaDict.key).Nodup →
      (∀ d ∈ fs.toList, d.key ∉ scKeys acc) →
      scKeys (buildChildren name fs acc)
        = scKeys acc ++ fs.toList.map SchemaDict.key := by
  induction fs using schemaFieldsInd with
  | hnil => intro name acc _ _; simp [buildChildren, SchemaFields.toList]
  | hcons d rest ih =>
    intro name acc hnd hdis
    simp only [SchemaFields.toList, List.map_cons, List.nodup_cons] at hnd
    have hd0 : d.key ∉ scKeys acc := hdis d (by simp [SchemaFields.toList])
    rw [buildChildren, ih name _ hnd.2 ?_, scKeys_scSet acc d.key _ hd0]
    · simp [SchemaFields.toList]
    · intro d' hd'
      rw [scKeys_scSet acc d.key _ hd0]
      simp only [List.mem_append, List.mem_singleton, not_or]
      refine ⟨hdis d' (by simp [SchemaFields.toList, hd']), ?_⟩
      intro he
      exact hnd.1 (he ▸ List.mem_map_of_mem SchemaDict.key hd')

/-!
## `Schema.keys` versus the depth-first path sequence
-/

/-- Joint characterisation of the compiled key traversal: `get_keys` over a
compiled node yields exactly its depth-first suffix paths joined under the
qualified name, and the children builder accumulates the same sequence. -/
theorem buildKeys_all :
    (∀ d : SchemaDict, ∀ name : String, wfDict d = true →
      get_keys (build_settings name d)
        = (nodeSuffixes d).map (fun p => joinDots (name :: p))) ∧
    (∀ fs : SchemaFields, ∀ (name : String) (acc : SettingChildren),
      wfFields fs = true → (∀ d ∈ fs.toList, d.key ∉ scKeys acc) →
      getKeysChildren (buildChildren name fs acc)
        = getKeysChildren acc
            ++ (leafPaths fs).map (fun p => joinDots (name :: p))) := by
  refine schemaMutualInd _ _ ?_ ?_ ?_
  · -- a single descriptor
    intro k t ty hp df fields va ihQ name hwf
    have hwff : wfFields fields = true :=
      (wfDict_parts (.mk k t ty hp df fields va) hwf).2
    by_cases hty : ty = "object"
    · cases hfe : fields.isEmpty with
      | true =>
        have : fields = .nil := (sfIsEmpty_iff fields).mp hfe
        subst this
        simp [build_settings, buildChildren, get_keys, nodeSuffixes,
          SettingChildren.isEmpty, hty, hfe, joinDots, leafPaths]
      | false =>
        have hch := ihQ name .nil hwff (by simp [scKeys])
        have hkeys : scKeys (buildChildren name fields .nil)
            = fields.toList.map SchemaDict.key := by
          have := buildChildren_scKeys fields name .nil
            (wfFields_nodup fields hwff) (by simp [scKeys])
          simpa [scKeys] using this
        have hne : ¬(buildChildren name fields .nil).isEmpty = true := by
          intro he
          rw [(scIsEmpty_iff _).mp he] at hkeys
          cases hft : fields with
          | nil => rw [hft] at hfe; simp [SchemaFields.isEmpty] at hfe
          | cons a b =>
            rw [hft] at hkeys
            simp [scKeys, SchemaFields.toList] at hkeys
        simp only [build_settings, hty, if_pos, get_keys]
        rw [if_pos ⟨trivial, hne⟩, hch]
        simp [nodeSuffixes, hty, hfe, getKeysChildren]
    · simp [build_settings, get_keys, nodeSuffixes, hty,
        SettingChildren.isEmpty, joinDots]
  · -- the empty field list
    intro name acc _ _
    simp [buildChildren, leafPaths]
  · -- a cons cell of the field list
    intro d rest ihP ihQ name acc hwf hdis
    obtain ⟨hwfd, hnotin, hwfrest⟩ := wfFields_cons d rest hwf
    have hd0 : d.key ∉ scKeys acc := hdis d (by simp [SchemaFields.toList])
    have hstep : getKeysChildren
        (scSet acc d.key (build_settings (name ++ "." ++ d.key) d))
        = getKeysChildren acc
            ++ get_keys (build_settings (name ++ "." ++ d.key) d) :=
      getKeysChildren_scSet acc d.key _ hd0
    have hdis' : ∀ d' ∈ rest.toList,
        d'.key ∉ scKeys (scSet acc d.key (build_settings (name ++ "." ++ d.key) d)) := by
      intro d' hd'
      rw [scKeys_scSet acc d.key _ hd0]
      simp only [List.mem_append, List.mem_singleton, not_or]
      refine ⟨hdis d' (by simp [SchemaFields.toList, hd']), ?_⟩
      intro he
      exact hnotin (he ▸ List.mem_map_of_mem SchemaDict.key hd')
    rw [buildChildren, ihQ name _ hwfrest hdis', hstep,
      ihP (name ++ "." ++ d.key) hwfd]
    have hmap : (nodeSuffixes d).map (fun p => joinDots ((name ++ "." ++ d.key) :: p))
        = (nodePaths d).map (fun p => joinDots (name :: p)) := by
      rw [nodePaths_eq_suffixes d, List.map_map]
      refine List.map_congr_left ?_
      intro p _
      show joinDots ((name ++ "." ++ d.key) :: p) = joinDots (name :: d.key :: p)
      rw [joinDots_dot, joinDots_cons name (d.key :: p) (by simp)]
    rw [hmap]
    simp [leafPaths, List.append_assoc]

theorem smAux_eq (fs : SchemaFields) :
    ∀ acc : List (String × Setting),
      (fs.toList.map SchemaDict.key).Nodup →
      (∀ d ∈ fs.toList, d.key ∉ acc.map Prod.fst) →
      smAux fs acc
        = acc ++ fs.toList.map (fun d => (d.key, build_settings d.key d)) := by
  induction fs using schemaFieldsInd with
  | hnil => intro acc _ _; simp [smAux, SchemaFields.toList]
  | hcons d rest ih =>
    intro acc hnd hdis
    simp only [SchemaFields.toList, List.map_cons, List.nodup_cons] at hnd
    have hd0 : d.key ∉ acc.map Prod.fst := hdis d (by simp [SchemaFields.toList])
    rw [smAux, dictSet_of_not_mem acc d.key _ hd0, ih _ hnd.2 ?_]
    · simp [SchemaFields.toList]
    · intro d' hd'
      have h1 : d'.key ∉ acc.map Prod.fst :=
        hdis d' (by simp [SchemaFields.toList, hd'])
      have h2 : ¬d'.key = d.key := fun he =>
        hnd.1 (he ▸ List.mem_map_of_mem SchemaDict.key hd')
      simp [h1, h2]

theorem keysOfList_map_build (fs : SchemaFields) (hwf : wfFields fs = true) :
    keysOfList (fs.toList.map (fun d => (d.key, build_settings d.key d)))
      = (leafPaths fs).map joinDots := by
  induction fs using schemaFieldsInd with
  | hnil => simp [SchemaFields.toList, keysOfList, leafPaths]
  | hcons d rest ih =>
    obtain ⟨hwfd, _, hwfrest⟩ := wfFields_cons d rest hwf
    simp only [SchemaFields.toList, List.map_cons, keysOfList]
    rw [ih hwfrest, buildKeys_all.1 d d.key hwfd]
    have : (nodeSuffixes d).map (fun p => joinDots (d.key :: p))
        = (nodePaths d).map joinDots := by
      rw [nodePaths_eq_suffixes d, List.map_map]
      rfl
    rw [this]
    simp [leafPaths]

/-- `Schema.keys` of a well-formed schema is exactly the depth-first
sequence of joined `leafPaths`. -/
theorem keys_eq_leafPaths (fs : SchemaFields) (hwf : wfFields fs = true) :
    Schema.keys fs = (leafPaths fs).map joinDots := by
  unfold Schema.keys Schema.settings_map
  rw [smAux_eq fs [] (wfFields_nodup fs hwf) (by simp)]
  simpa using keysOfList_map_build fs hwf

/-!
## Claim theorems (part 3)
-/

/-- C5: for every well-formed schema and every key `k` in `Schema.keys`,
`get_setting(schema.defaults(), k, object)` either returns a value or fails
with a plain `KeyError` from a missed dict lookup — never with
`InvalidValue` or the intermediate-type assertion failure, and a fortiori
never with `InvalidKey`, an exception `get_setting` has no way to raise at
all (its error type in this embedding has no such outcome). -/
theorem c5_keys_lookup_safe (fs : SchemaFields) (k : String)
    (h1 : wfFields fs = true) (h2 : k ∈ Schema.keys fs) :
    okOrKeyError (get_setting (Schema.defaults fs) k PyType.object) := by
  rw [keys_eq_leafPaths fs h1] at h2
  obtain ⟨p, hp, heq⟩ := List.mem_map.mp h2
  subst heq
  unfold get_setting
  rw [parse_key_joinDots p (leafPaths_mem_ne_nil fs p hp)
    (leafPaths_dotFree p fs h1 hp)]
  exact leafPaths_getSettingAux p fs (joinDots p) h1 hp

/-- Witness for C5 at the concrete `SCHEMA` and the deepest key. -/
theorem c5_keys_lookup_safe_witness :
    wfFields SCHEMA = true ∧
      "accounts.anthropic.apikey" ∈ Schema.keys SCHEMA ∧
      okOrKeyError (get_setting (Schema.defaults SCHEMA)
        "accounts.anthropic.apikey" PyType.object) :=
  ⟨rfl, by decide,
   c5_keys_lookup_safe SCHEMA "accounts.anthropic.apikey" rfl (by decide)⟩

/-- C7 counterexample: for the schema consisting of one childless `object`,
`Schema.keys` yields the object's own key `"a"`, whereas the depth-first
sequence of leaf (non-`object`) dotted keys is empty — so `keys` is *not*
the sequence of exactly the leaf keys. -/
theorem c7_counterexample_childless_object :
    Schema.keys emptyObjectSchema
        ≠ (leafOnlyPaths emptyObjectSchema).map joinDots ∧
      Schema.keys emptyObjectSchema = ["a"] ∧
      (leafOnlyPaths emptyObjectSchema).map joinDots = [] :=
  ⟨by decide, rfl, rfl⟩

/-- C7 (amended): for every well-formed schema definition, `Schema.keys` is
the depth-first sequence, in declaration order, of the fully qualified
dotted keys yielded by recursing into the children of every `object` that
has at least one field and yielding the node's own key otherwise — so leaf
nodes *and* childless `object` nodes both contribute.  (Determinism and
stability hold by construction: the embedding is a pure function of the
schema definition.) -/
theorem c7_amended_keys_eq_dfs (fs : SchemaFields) (hwf : wfFields fs = true) :
    Schema.keys fs = (leafPaths fs).map joinDots :=
  keys_eq_leafPaths fs hwf

/-- Witness for C7 at the concrete `SCHEMA`. -/
theorem c7_amended_keys_eq_dfs_witness :
    wfFields SCHEMA = true ∧
      Schema.keys SCHEMA = (leafPaths SCHEMA).map joinDots :=
  ⟨rfl, c7_amended_keys_eq_dfs SCHEMA rfl⟩
